import Mathlib

/-!
Verification development for the "lizards" compressor/decompressor.

The repository implements an LZ77-style dictionary coder (sliding
lookback/pending windows, variable-width offset/length records) combined
with a Huffman entropy stage for literal runs, a chunked container
format, and a byte-driven decoder state machine.

This file gives a shallow embedding of the relevant Rust functions as
executable Lean definitions.  Machine integers (`u8`, `u16`, `u64`,
`usize`) are modelled as `Nat`, with explicit `% 2 ^ 64` (resp. `% 256`)
where the Rust code can wrap.  Code paths that panic or `unwrap` a
missing value are modelled with `Option`, `none` standing for the
failure.  Hash maps are modelled as association lists in insertion
order, and the `DoublePriorityQueue` used by the Huffman builder is
modelled as a list where `push` appends and `pop_min` removes the first
element of minimal priority.
-/

namespace Lizards

/-! ## Global constants (crate root, `main.rs`) -/

/-- `MAX_LOOKBACK_BUFFER_LEN` from the crate root. -/
def MAX_LOOKBACK_BUFFER_LEN : Nat := 128

/-- `MAX_READ_BUFFER_LEN` from the crate root. -/
def MAX_READ_BUFFER_LEN : Nat := 64

/-- `MIN_MATCH_SIZE` from the crate root. -/
def MIN_MATCH_SIZE : Nat := 3

/-! ## `offset_len.rs` : the variable-width (offset, len) codec -/

/-- `OffsetLen` (offset_len.rs).  `offset` and `len` are `u64` in the
source; we carry them as `Nat` together with the optional matched bytes
kept for debug output. -/
structure OffsetLen where
  offset : Nat
  len : Nat
  matchedBytes : Option (List Nat)
  deriving Repr, DecidableEq

namespace OffsetLen

/-- `OffsetLen::new_with_match`. -/
def newWithMatch (offset len : Nat) (matchedBytes : Option (List Nat)) : OffsetLen :=
  ⟨offset, len, matchedBytes⟩

/-- `OffsetLen::new`. -/
def new (offset len : Nat) : OffsetLen := newWithMatch offset len none

/-- `OffsetLen::SIZES`: the width boundaries `2^8 - 1, 2^16 - 1, …, u64::MAX`. -/
def SIZES : List Nat :=
  [2 ^ 8 - 1, 2 ^ 16 - 1, 2 ^ 24 - 1, 2 ^ 32 - 1,
   2 ^ 40 - 1, 2 ^ 48 - 1, 2 ^ 56 - 1, 2 ^ 64 - 1]

/-- Loop body of `OffsetLen::find_num_bytes`: scan `SIZES` with the
running index, returning `i + 1` for the first bound that fits.
Falling off the end is the source's `panic!`, modelled as `none`. -/
def findNumBytesAux (v : Nat) : Nat → List Nat → Option Nat
  | _, [] => none
  | i, size :: rest => if v ≤ size then some (i + 1) else findNumBytesAux v (i + 1) rest

/-- `OffsetLen::find_num_bytes`. -/
def findNumBytes (v : Nat) : Option Nat := findNumBytesAux v 0 SIZES

/-- `OffsetLen::take_bytes`: the low `numBytes` bytes of `value`,
least-significant byte first (`(value >> (i * 8)) as u8`). -/
def takeBytes (value : Nat) (numBytes : Nat) : List Nat :=
  (List.range numBytes).map (fun i => (value >>> (i * 8)) % 256)

/-- `OffsetLen::value_of_bytes` with the running bit position made an
explicit argument: `result = result | (byte << (i * 8))` over the
enumerated bytes. -/
def valueOfBytesFrom : Nat → List Nat → Nat
  | _, [] => 0
  | i, b :: bs => (b <<< (i * 8)) ||| valueOfBytesFrom (i + 1) bs

/-- `OffsetLen::value_of_bytes`. -/
def valueOfBytes (bytes : List Nat) : Nat := valueOfBytesFrom 0 bytes

/-- `OffsetLen::to_bytes_new`.  The marker byte is
`0b10000000 | ((num_bytes_for_offset - 1) << 3) | (num_bytes_for_len - 1)`,
followed by the offset bytes then the len bytes, each LSB first. -/
def toBytesNew (ol : OffsetLen) : Option (List Nat) := do
  let numBytesForOffset ← findNumBytes ol.offset
  let numBytesForLen ← findNumBytes ol.len
  let numByte := 0b10000000 ||| ((numBytesForOffset - 1) <<< 3) ||| (numBytesForLen - 1)
  return numByte :: (takeBytes ol.offset numBytesForOffset ++ takeBytes ol.len numBytesForLen)

/-- `OffsetLen::read_header_byte`. -/
def readHeaderByte (headerByte : Nat) : Nat × Nat :=
  (((headerByte >>> 3) &&& 0b00000111) + 1, (headerByte &&& 0b00000111) + 1)

/-- `OffsetLen::of_bytes_new`.  Fails (source: `panic!`) when the number
of supplied bytes is not `1 + num_bytes_for_offset + num_bytes_for_len`. -/
def ofBytesNew (bytes : List Nat) : Option OffsetLen := do
  let lenByte ← bytes.head?
  let (numBytesForOffset, numBytesForLen) := readHeaderByte lenByte
  let expectedNumBytes := 1 + numBytesForOffset + numBytesForLen
  if bytes.length ≠ expectedNumBytes then
    none
  else
    let offsetBytes := (bytes.drop 1).take numBytesForOffset
    let lenBytes := bytes.drop (1 + numBytesForOffset)
    return ⟨valueOfBytes offsetBytes, valueOfBytes lenBytes, none⟩

/-- `OffsetLen::range_end`: `offset + len` (no overflow below `2^64 + 2^64`). -/
def rangeEnd (ol : OffsetLen) : Nat := ol.offset + ol.len

end OffsetLen

/-! ## `huffman.rs` : model, bit packing and unpacking -/

/-- `Bits` (huffman.rs): a code of `bitSize` significant bits stored in
the low bits of the `u64` `setBits`. -/
structure Bits where
  setBits : Nat
  bitSize : Nat
  deriving Repr, DecidableEq

/-- `Bits::default`. -/
def Bits.default : Bits := ⟨0, 0⟩

/-- `Bits::clone_with_increase`: append a 0 (left descent) or 1 (right
descent) on the right.  `set_bits << 1` is a `u64` shift, hence the
explicit `% 2 ^ 64`. -/
def Bits.cloneWithIncrease (b : Bits) (isLeft : Bool) : Bits :=
  let oneOrZero := if isLeft then 0 else 1
  ⟨((b.setBits <<< 1) % 2 ^ 64) ||| oneOrZero, b.bitSize + 1⟩

/-- `Node` (huffman.rs): `value` is set only on leaves, the children are
optional boxes, and `is_end_node` marks the end-sentinel leaf. -/
inductive RNode where
  | mk (value : Option Nat) (left : Option RNode) (right : Option RNode) (isEndNode : Bool)
  deriving Repr

namespace RNode

def value : RNode → Option Nat
  | mk v _ _ _ => v

def left : RNode → Option RNode
  | mk _ l _ _ => l

def right : RNode → Option RNode
  | mk _ _ r _ => r

def isEndNode : RNode → Bool
  | mk _ _ _ e => e

/-- `Node::new_leaf`. -/
def newLeaf (v : Nat) : RNode := mk (some v) none none false

/-- `Node::new_vertex` as called in `build_tree`: both children are
always passed as `Some`. -/
def newVertex (l r : RNode) : RNode := mk none (some l) (some r) false

/-- `Node::new_end`. -/
def newEnd : RNode := mk none none none true

end RNode

/-- `HuffmanTree` (huffman.rs). -/
structure HuffmanTree where
  rootNode : Option RNode
  deriving Repr

/-- `ByteStats = HashMap<u8, usize>`, modelled as an association list in
insertion order with distinct keys. -/
abbrev ByteStats := List (Nat × Nat)

/-- `CodeMap` (huffman.rs): the byte → `Bits` table plus the end code. -/
structure CodeMap where
  codes : List (Nat × Bits)
  endCode : Bits
  deriving Repr, DecidableEq

/-- `HashMap::insert` on the association list: replace the binding if
the key is present, otherwise append. -/
def alistInsert (key : Nat) (v : Bits) : List (Nat × Bits) → List (Nat × Bits)
  | [] => [(key, v)]
  | (k, w) :: rest => if k = key then (k, v) :: rest else (k, w) :: alistInsert key v rest

/-- `HashMap::get` on the association list. -/
def alistGet (key : Nat) : List (Nat × Bits) → Option Bits
  | [] => none
  | (k, w) :: rest => if k = key then some w else alistGet key rest

/-- `pop_min` of the `DoublePriorityQueue`, determinised: remove the
first entry holding the minimal priority (`push` appends, see below). -/
def popMin : List (RNode × Nat) → Option ((RNode × Nat) × List (RNode × Nat))
  | [] => none
  | x :: xs =>
    match popMin xs with
    | none => some (x, [])
    | some (y, rest) => if x.2 ≤ y.2 then some (x, xs) else some (y, x :: rest)

/-- The `while priority_queue.len() > 1` merge loop of `build_tree`:
pop the two lowest nodes, combine them into a vertex with the summed
frequency, push the result; the sole survivor is the root.  Each
iteration shrinks the queue by one, so running it with fuel equal to
the initial queue length (see `mergeLoop`) covers every iteration; the
fuel-exhaustion arm is unreachable. -/
def mergeLoopAux : Nat → List (RNode × Nat) → Option (RNode × Nat)
  | 0, _ => none
  | fuel + 1, q =>
    match popMin q with
    | none => none
    | some ((node0, count0), q1) =>
      match popMin q1 with
      | none => some (node0, count0)
      | some ((node1, count1), q2) =>
        mergeLoopAux fuel (q2 ++ [(RNode.newVertex node0 node1, count0 + count1)])

/-- The merge loop of `build_tree` on a queue. -/
def mergeLoop (q : List (RNode × Nat)) : Option (RNode × Nat) :=
  mergeLoopAux q.length q

/-- `build_tree` (huffman.rs).  Entries are pushed in iteration order of
the stats map; the single lowest-frequency leaf is combined with a fresh
end node first, then the merge loop runs.  The `unwrap` on an empty
queue (empty stats) is the `none` case. -/
def buildTree (stats : ByteStats) : Option HuffmanTree :=
  let q : List (RNode × Nat) := stats.map (fun vc => (RNode.newLeaf vc.1, vc.2))
  match popMin q with
  | none => none
  | some ((node, count), q') =>
    let combined := RNode.newVertex node RNode.newEnd
    match mergeLoop (q' ++ [(combined, count)]) with
    | none => none
    | some (root, _) => some ⟨some root⟩

/-- The recursive worker `rec` of `tree_to_code_map`: depth-first walk,
left descent appends bit 0, right descent appends bit 1; a leaf stores
its code in the map, the end node stores the end code. -/
def codeMapRec (bits : Bits) (node : RNode)
    (acc : List (Nat × Bits) × Option Bits) : List (Nat × Bits) × Option Bits :=
  match node with
  | .mk (some v) _ _ _ => (alistInsert v bits acc.1, acc.2)
  | .mk none l r isEnd =>
    if isEnd then (acc.1, some bits)
    else
      let acc1 :=
        match l with
        | some leftNode => codeMapRec (bits.cloneWithIncrease true) leftNode acc
        | none => acc
      match r with
      | some rightNode => codeMapRec (bits.cloneWithIncrease false) rightNode acc1
      | none => acc1

/-- `tree_to_code_map` (huffman.rs).  The two `unwrap`s (no root, or no
end code found) are the `none` cases. -/
def treeToCodeMap (tree : HuffmanTree) : Option CodeMap :=
  match tree.rootNode with
  | none => none
  | some root =>
    match codeMapRec Bits.default root ([], none) with
    | (codes, some endCode) => some ⟨codes, endCode⟩
    | (_, none) => none

/-- The 8 bytes of a `u64` in big-endian order (`u64::to_be_bytes`). -/
def u64ToBeBytes (w : Nat) : List Nat :=
  [(w >>> 56) % 256, (w >>> 48) % 256, (w >>> 40) % 256, (w >>> 32) % 256,
   (w >>> 24) % 256, (w >>> 16) % 256, (w >>> 8) % 256, w % 256]

/-- One iteration of the `pack_to_u8` loop: consume a literal byte,
placing its code into the 64-bit accumulator (flushing and splitting as
needed).  State is `(output, working_bytes, bits_left)`.  A byte without
a mapped code is the source's `unwrap` failure.  Shifted values are
reduced `% 2 ^ 64` exactly where the `u64` arithmetic wraps. -/
def packStep (codeMap : CodeMap) (st : List Nat × Nat × Nat) (v : Nat) :
    Option (List Nat × Nat × Nat) := do
  let (output, workingBytes, bitsLeft) := st
  let valueBits ← alistGet v codeMap.codes
  let (output, workingBytes, bitsLeft) :=
    if valueBits.bitSize > bitsLeft then
      let numBitsOnNew := valueBits.bitSize - bitsLeft
      let workingBytes := workingBytes ||| (valueBits.setBits >>> numBitsOnNew)
      let output := output ++ u64ToBeBytes workingBytes
      let workingBytes := (valueBits.setBits <<< (64 - numBitsOnNew)) % 2 ^ 64
      (output, workingBytes, 64 - numBitsOnNew)
    else
      let bitsLeft := bitsLeft - valueBits.bitSize
      (output, workingBytes ||| ((valueBits.setBits <<< bitsLeft) % 2 ^ 64), bitsLeft)
  if bitsLeft = 0 then
    return (output ++ u64ToBeBytes workingBytes, 0, 64)
  else
    return (output, workingBytes, bitsLeft)

/-- `pack_to_u8` (huffman.rs): run the loop over the input stream, then
append the end code only if it fits in the remaining space, and emit the
populated leading bytes of the final accumulator. -/
def packToU8 (codeMap : CodeMap) (inputStream : List Nat) : Option (List Nat) := do
  let (output, workingBytes, bitsLeft) ←
    inputStream.foldlM (packStep codeMap) ([], 0, 64)
  let (workingBytes, bitsLeft) :=
    if bitsLeft ≥ codeMap.endCode.bitSize then
      let bitsLeft := bitsLeft - codeMap.endCode.bitSize
      (workingBytes ||| ((codeMap.endCode.setBits <<< bitsLeft) % 2 ^ 64), bitsLeft)
    else
      (workingBytes, bitsLeft)
  let bytesPopulated :=
    if (64 - bitsLeft) % 8 ≠ 0 then (64 - bitsLeft) / 8 + 1 else (64 - bitsLeft) / 8
  return output ++ (u64ToBeBytes workingBytes).take bytesPopulated

/-- The bit sequence produced by `BitStream` (huffman.rs): each byte is
read most-significant bit first (`mask = 1 << (8 - byte_pos)`). -/
def byteToBits (b : Nat) : List Bool :=
  (List.range 8).map (fun i => Nat.testBit b (7 - i))

/-- All bits of a byte sequence in `BitStream` order. -/
def bytesToBits (bytes : List Nat) : List Bool :=
  bytes.flatMap byteToBits

/-- The tree walk inside `unpack_bytes`: follow each bit (true = right,
false = left) from the current node; a missing child is the source's
`unwrap` panic (`none`); reaching a value leaf emits the byte and resets
to the root; reaching the end node stops. -/
def unpackWalk (rootNode : RNode) : RNode → List Bool → Option (List Nat)
  | _, [] => some []
  | currentNode, moveRight :: rest =>
    match (if moveRight then currentNode.right else currentNode.left) with
    | none => none
    | some nextNode =>
      match nextNode.value with
      | some v => (unpackWalk rootNode rootNode rest).map (v :: ·)
      | none =>
        if nextNode.isEndNode then some []
        else unpackWalk rootNode nextNode rest

/-- `unpack_bytes` (huffman.rs). -/
def unpackBytes (inputBytes : List Nat) (tree : HuffmanTree) : Option (List Nat) :=
  match tree.rootNode with
  | none => none
  | some rootNode => unpackWalk rootNode rootNode (bytesToBits inputBytes)

/-! ## `decode.rs` : `finalise_match` -/

/-- `finalise_match` (decode.rs).  Rejects the record (source: `panic!`,
the `RangeOutOfBounds` condition) when `offset + len` exceeds the bytes
currently materialised in the decode window; otherwise appends
`window[offset..offset+len]` to the window's tail. -/
def finaliseMatch (readBuffer : List Nat) (ol : OffsetLen) : Option (List Nat) :=
  if ol.rangeEnd > readBuffer.length then
    none
  else
    some (readBuffer ++ (readBuffer.drop ol.offset).take ol.len)

/-! ## `ChunkMarker` (crate root) and `output_stream.rs` -/

/-- `ChunkMarker` (crate root, see also the earlier revision kept in
`main.rs`): the literal-chunk marker byte holding a 6-bit payload
length. -/
structure ChunkMarker where
  len : Nat
  deriving Repr, DecidableEq

namespace ChunkMarker

/-- `ChunkMarker::to_u8`: set the two top bits to `11`. -/
def toU8 (m : ChunkMarker) : Nat := m.len ||| 0b11000000

/-- `ChunkMarker::from_encoded_u8`: keep the low 6 bits. -/
def fromEncodedU8 (v : Nat) : ChunkMarker := ⟨v &&& 0b00111111⟩

/-- `ChunkMarker::MAX_VALUE`.  Modelled from the spec: the crate root
defining this constant is not under `src/`; §4.4 fixes the maximum
literal-chunk payload length at 63 bytes (the 6-bit length field), and
the older revision in `main.rs` carries the same constant as
`MAX_CHUNK_LEN = 63`. -/
def MAX_VALUE : Nat := 63

end ChunkMarker

/-- `Vec::chunks` with explicit fuel: each step removes `n ≥ 1`
elements, so fuel equal to the list length (see `listChunks`) covers
every step. -/
def listChunksAux (n : Nat) : Nat → List Nat → List (List Nat)
  | _, [] => []
  | 0, _ => []
  | fuel + 1, l => l.take n :: listChunksAux n fuel (l.drop n)

/-- `Vec::chunks`: split into consecutive segments of `n` elements, the
last one possibly shorter (`n = 0` is a panic in Rust and never occurs;
the chunk size used is `ChunkMarker::MAX_VALUE`). -/
def listChunks (n : Nat) (l : List Nat) : List (List Nat) :=
  if n = 0 then [] else listChunksAux n l.length l

/-- `OutputStream::end_chunk` (output_stream.rs), payload view: the
buffered literal bytes are Huffman-packed, then split into payload
segments of at most `ChunkMarker::MAX_VALUE` bytes. -/
def endChunkPayloads (codeMap : CodeMap) (buf : List Nat) : Option (List (List Nat)) :=
  (packToU8 codeMap buf).map (listChunks ChunkMarker.MAX_VALUE)

/-- `OutputStream::end_chunk` (output_stream.rs), emitted bytes: each
payload segment is preceded by its one-byte chunk marker. -/
def endChunk (codeMap : CodeMap) (buf : List Nat) : Option (List Nat) :=
  (endChunkPayloads codeMap buf).map
    (fun payloads => payloads.flatMap (fun c => ChunkMarker.toU8 ⟨c.length⟩ :: c))

/-- The decoder's treatment of consecutive literal-chunk records
(decode.rs, `DecodeParseState::RawByteChunk`): each chunk's payload is
collected into `raw_byte_buffer`, unpacked through the header tree as
soon as the chunk is complete, appended to the decode window, and the
buffer is cleared — every chunk is unpacked independently from the tree
root. -/
def decodeChunkedLiterals (tree : HuffmanTree) (payloads : List (List Nat)) :
    Option (List Nat) :=
  payloads.foldlM (fun acc p => (unpackBytes p tree).map (acc ++ ·)) []

/-! ## `decode.rs` : the byte-driven state machine -/

/-- `RawByteReadOnFinish` (decode.rs). -/
inductive RawByteReadOnFinish where
  | nothing
  | finaliseMatch (ol : OffsetLen)
  deriving Repr, DecidableEq

/-- `DecodeParseState` (decode.rs). -/
inductive DecodeParseState where
  | start
  | readingHeaderLen (firstByte : Nat)
  | readingHeader (remaining : Nat)
  | rawByteChunk (remaining : Nat) (onFinish : RawByteReadOnFinish)
  | expectingMatchOrRawChunk
  | offsetLenRead (remainingBytes : Nat)
  deriving Repr, DecidableEq

/-- One step of the decoder state machine (decode.rs, the `Ok(1)` arm),
restricted to the control state: the buffers the decoder fills along the
way do not influence which state follows a byte, except where their
mis-parsing panics.  `none` models the panics reachable in a step: an
unknown record marker (top bits neither `10` nor `11`) and the `usize`/
`u8` underflows of `remaining - 1` when a counter is already `0` (a
declared header length below 2, or a zero-length chunk marker).  The
header-body parse (`Header::from_bytes`) is treated as succeeding; it
produces the Huffman tree, which is not part of the control state. -/
def decodeStateStep (state : DecodeParseState) (v : Nat) : Option DecodeParseState :=
  match state with
  | .start => some (.readingHeaderLen v)
  | .readingHeaderLen firstByte =>
    let headerLen := 256 * firstByte + v
    if headerLen < 2 then none else some (.readingHeader (headerLen - 2))
  | .readingHeader remaining =>
    if remaining = 0 then none
    else if remaining = 1 then some .expectingMatchOrRawChunk
    else some (.readingHeader (remaining - 1))
  | .expectingMatchOrRawChunk =>
    match v >>> 6 with
    | 0b10 =>
      let (numOffsetBytes, numLenBytes) := OffsetLen.readHeaderByte v
      some (.offsetLenRead (numOffsetBytes + numLenBytes))
    | 0b11 =>
      let marker := ChunkMarker.fromEncodedU8 v
      some (.rawByteChunk marker.len .nothing)
    | _ => none
  | .rawByteChunk remaining onFinish =>
    if remaining = 0 then none
    else if remaining = 1 then some .expectingMatchOrRawChunk
    else some (.rawByteChunk (remaining - 1) onFinish)
  | .offsetLenRead remainingBytes =>
    if remainingBytes = 0 then none
    else if remainingBytes = 1 then some .expectingMatchOrRawChunk
    else some (.offsetLenRead (remainingBytes - 1))

/-- The decoder's control state after consuming a whole input
(decode.rs main loop); `none` if a step panicked on the way. -/
def decodeFinalState (input : List Nat) : Option DecodeParseState :=
  input.foldlM decodeStateStep .start

/-- The `//Handle final decode state` match at the bottom of `decode`
(decode.rs lines 129-146): which states accept end of input without a
truncation panic. -/
def eoiAccepted : DecodeParseState → Bool
  | .start => true
  | .expectingMatchOrRawChunk => true
  | .readingHeaderLen _ => false
  | .readingHeader _ => false
  | .rawByteChunk _ .nothing => false
  | .rawByteChunk _ (.finaliseMatch _) => true
  | .offsetLenRead _ => false

/-! ## `encode.rs` : frequency pass and the match finder -/

/-- `statsIncr`: `byte_stats.entry(b).or_insert(0); *count += 1`. -/
def statsIncr (stats : ByteStats) (b : Nat) : ByteStats :=
  match stats with
  | [] => [(b, 1)]
  | (k, c) :: rest => if k = b then (k, c + 1) :: rest else (k, c) :: statsIncr rest b

/-- Lookup in the stats map. -/
def statsGet (b : Nat) : ByteStats → Option Nat
  | [] => none
  | (k, c) :: rest => if k = b then some c else statsGet b rest

/-- `populate_byte_stats` (encode.rs) with explicit fuel: every read
consumes at least one input byte, so fuel equal to the input length
(see `populateByteStats`) covers every iteration.  The reader fills up
to 10 bytes of the stack buffer per call, but the `for b in buffer`
loop walks the WHOLE 10-byte buffer regardless of how many bytes the
read returned, so stale bytes (initially zeros) are counted too —
modelled exactly. -/
def populateByteStatsAux : Nat → ByteStats → List Nat → List Nat → ByteStats
  | _, stats, _, [] => stats
  | 0, stats, _, _ => stats
  | fuel + 1, stats, buffer, input =>
    let n := min 10 input.length
    let buffer' := input.take n ++ buffer.drop n
    let stats' := buffer'.foldl statsIncr stats
    populateByteStatsAux fuel stats' buffer' (input.drop n)

/-- `populate_byte_stats` (encode.rs). -/
def populateByteStats (stats : ByteStats) (buffer : List Nat) (input : List Nat) :
    ByteStats :=
  populateByteStatsAux input.length stats buffer input

/-- The frequency-statistics buffer starts as `[0; 10]`. -/
def initialStatsBuffer : List Nat := List.replicate 10 0

/-- The Huffman tree the encoder builds for a given input: `encode`
runs `populate_byte_stats` over the whole input and hands the stats to
`build_tree` (encode.rs / `create_output_stream`). -/
def encodeModelTree (input : List Nat) : Option HuffmanTree :=
  buildTree (populateByteStats [] initialStatsBuffer input)

/-- `EncodedValue` (crate root). -/
inductive EncodedValue where
  | offsetLen (ol : OffsetLen)
  | rawU8 (v : Nat)
  deriving Repr, DecidableEq

/-- The `for i in 0..total_len` loop of `find_match` (encode.rs).  The
loop body first breaks unconditionally as soon as `i` reaches the
lookback buffer's length (the commented-out look-ahead into the read
buffer), so `looking_at` is always `lookback_buffer[i]`; on a mismatch
the current match is cleared and the scan moves on to `i + 1` without
reconsidering position `i`.  The `i ≥ total_len` loop bound is the
fuel, initially `total_len` with `i = 0`. -/
def findMatchLoop (readBuffer lookbackBuffer : List Nat) :
    Nat → Nat → Nat × List Nat → Option (Nat × List Nat) → Option (Nat × List Nat)
  | 0, _, _, bestMatch => bestMatch
  | fuel + 1, i, currentMatch, bestMatch =>
    if i ≥ lookbackBuffer.length then bestMatch
    else
      let lookingAt := lookbackBuffer.getD i 0
      match readBuffer.get? currentMatch.2.length with
      | some expectingV =>
        if lookingAt = expectingV then
          let currentMatch :=
            if currentMatch.2.isEmpty then (i, currentMatch.2) else currentMatch
          let currentMatch := (currentMatch.1, currentMatch.2 ++ [lookingAt])
          let isBest :=
            match bestMatch with
            | none => true
            | some (_, matchedValues) => currentMatch.2.length > matchedValues.length
          let bestMatch := if isBest then some currentMatch else bestMatch
          findMatchLoop readBuffer lookbackBuffer fuel (i + 1) currentMatch bestMatch
        else
          findMatchLoop readBuffer lookbackBuffer fuel (i + 1) (0, []) bestMatch
      | none => findMatchLoop readBuffer lookbackBuffer fuel (i + 1) currentMatch bestMatch

/-- `find_match` (encode.rs).  `none` models the `unwrap` panic of
`read_buffer.front()` on an empty read buffer (never reached by the
encoder, which only calls it while `read_buffer.len() > 0`). -/
def findMatch (readBuffer lookbackBuffer : List Nat) (noMatching : Bool) :
    Option EncodedValue :=
  let totalLen := readBuffer.length + lookbackBuffer.length
  let bestMatch :=
    if noMatching then none
    else findMatchLoop readBuffer lookbackBuffer totalLen 0 (0, []) none
  match bestMatch with
  | none => readBuffer.head?.map .rawU8
  | some (offset, matchedValues) =>
    if matchedValues.length < MIN_MATCH_SIZE then readBuffer.head?.map .rawU8
    else some (.offsetLen (OffsetLen.newWithMatch offset matchedValues.length
      (some matchedValues)))

/-- Following the words of claim C4 (and spec §4.5), NOT the source:
the length of the run starting at offset `i`, comparing
`lookbackWindow[i], lookbackWindow[i+1], …` — continuing into the
pending window when the run extends past the lookback boundary —
against `pendingWindow[0], pendingWindow[1], …`. -/
def claimRunLen (readBuffer lookbackBuffer : List Nat) (i : Nat) : Nat :=
  let seq := lookbackBuffer ++ readBuffer
  ((List.range readBuffer.length).takeWhile
    (fun j => i + j < seq.length && seq.getD (i + j) 0 == readBuffer.getD j 0)).length

/-- Following the words of claim C4 (and spec §4.5), NOT the source:
the longest run over all start offsets inside the lookback window, the
first-found offset winning ties, degraded to the raw front literal when
no run reaches `MIN_MATCH_SIZE`. -/
def claimFindMatch (readBuffer lookbackBuffer : List Nat) : Option EncodedValue :=
  let best :=
    (List.range lookbackBuffer.length).foldl
      (fun acc i =>
        let l := claimRunLen readBuffer lookbackBuffer i
        match acc with
        | none => if 0 < l then some (i, l) else none
        | some (_, bl) => if l > bl then some (i, l) else acc)
      none
  match best with
  | none => readBuffer.head?.map .rawU8
  | some (i, l) =>
    if l < MIN_MATCH_SIZE then readBuffer.head?.map .rawU8
    else some (.offsetLen (OffsetLen.newWithMatch i l (some (readBuffer.take l))))

/-! ## Concrete fixtures used by the evidence theorems

`stats4` is a frequency table with pairwise distinct counts, so every
`pop_min` of the Huffman build is forced independently of how the
priority structure breaks ties; `tree4` and `codeMap4` are the tree and
code map the model computes from it (codes: byte 2 ↦ `00`, byte 0 ↦
`0100`, byte 1 ↦ `011`, byte 3 ↦ `1`, end sentinel ↦ `0101`). -/

/-- A four-symbol frequency table with pairwise distinct counts. -/
def stats4 : ByteStats := [(0, 2), (1, 3), (2, 4), (3, 10)]

/-- The Huffman tree `build_tree` produces from `stats4`. -/
def tree4 : HuffmanTree :=
  ⟨some (.mk none
    (some (.mk none
      (some (.mk (some 2) none none false))
      (some (.mk none
        (some (.mk none
          (some (.mk (some 0) none none false))
          (some (.mk none none none true))
          false))
        (some (.mk (some 1) none none false))
        false))
      false))
    (some (.mk (some 3) none none false))
    false)⟩

/-- The code map `tree_to_code_map` derives from `tree4`. -/
def codeMap4 : CodeMap :=
  ⟨[(2, ⟨0, 2⟩), (0, ⟨4, 4⟩), (1, ⟨3, 3⟩), (3, ⟨1, 1⟩)], ⟨5, 4⟩⟩

/-! ## Structural predicates used in the claim statements -/

/-- Well-formedness of a tree node: every internal node (no value, not
the end sentinel) has both a left and a right child, recursively.  The
trees `build_tree` produces satisfy this; it is what makes the
`unwrap`s inside `unpack_bytes` safe. -/
def RNode.wfb : RNode → Bool
  | .mk (some _) _ _ _ => true
  | .mk none _ _ true => true
  | .mk none (some l) (some r) false => l.wfb && r.wfb
  | .mk none _ _ false => false

/-- A value at a byte-width boundary (`2^8 - 1, 2^16 - 1, …, 2^64 - 1`)
or one above a boundary (claim C9; one above the top boundary does not
exist in `u64`). -/
def boundaryValue (v : Nat) : Prop :=
  (∃ k, 1 ≤ k ∧ k ≤ 8 ∧ v = 2 ^ (8 * k) - 1) ∨
  (∃ k, 1 ≤ k ∧ k ≤ 7 ∧ v = 2 ^ (8 * k))

end Lizards

namespace Lizards

/-! # Helper lemmas -/

/-- `popMin` returns `none` exactly on the empty queue. -/
theorem popMin_eq_none (q : List (RNode × Nat)) : popMin q = none ↔ q = [] := by
  cases q with
  | nil => simp [popMin]
  | cons y ys =>
    simp only [popMin]
    cases popMin ys with
    | none => simp
    | some p =>
      simp only
      split <;> simp

/-- Popping the minimum removes exactly one element. -/
theorem popMin_length (q : List (RNode × Nat)) (x : RNode × Nat)
    (rest : List (RNode × Nat)) (h : popMin q = some (x, rest)) :
    rest.length + 1 = q.length := by
  induction q generalizing x rest with
  | nil => simp [popMin] at h
  | cons y ys ih =>
    simp only [popMin] at h
    cases hpm : popMin ys with
    | none =>
      simp only [hpm] at h
      have hnil : ys = [] := (popMin_eq_none ys).mp hpm
      simp at h
      subst hnil
      simp [← h.2]
    | some p =>
      simp only [hpm] at h
      split at h
      · simp at h
        simp [← h.2]
      · simp at h
        have := ih p.1 p.2 (by rw [hpm])
        simp [← h.2, List.length_cons]
        omega

/-- Placing shifted bits over low bits they do not overlap is addition. -/
theorem shiftLeft_lor_eq_add {b k : Nat} (h : b < 2 ^ k) (a : Nat) :
    (a <<< k) ||| b = 2 ^ k * a + b := by
  rw [Nat.shiftLeft_eq, Nat.mul_comm a (2 ^ k)]
  exact (Nat.mul_add_lt_is_or h a).symm

/-- Shifting distributes over bitwise or. -/
theorem lor_shiftLeft (x y k : Nat) : (x ||| y) <<< k = (x <<< k) ||| (y <<< k) :=
  Nat.eq_of_testBit_eq fun i => by
    simp [Nat.testBit_shiftLeft, Nat.testBit_or, Bool.and_or_distrib_left]

/-- Field recovery from the `OffsetLen` marker byte, for all 3-bit
width fields. -/
theorem marker_fields :
    ∀ a, a < 8 → ∀ b, b < 8 →
      (0b10000000 ||| (a <<< 3) ||| b) >>> 6 = 0b10 ∧
      ((0b10000000 ||| (a <<< 3) ||| b) >>> 3) &&& 0b00000111 = a ∧
      (0b10000000 ||| (a <<< 3) ||| b) &&& 0b00000111 = b := by
  decide

/-- `take_bytes` produces exactly the requested number of bytes. -/
theorem takeBytes_length (v n : Nat) : (OffsetLen.takeBytes v n).length = n := by
  simp [OffsetLen.takeBytes]

/-- Peeling one byte off `take_bytes`. -/
theorem takeBytes_succ (v n : Nat) :
    OffsetLen.takeBytes v (n + 1) = v % 256 :: OffsetLen.takeBytes (v >>> 8) n := by
  simp only [OffsetLen.takeBytes, List.range_succ_eq_map, List.map_cons, List.map_map,
    List.cons.injEq]
  refine ⟨by simp, List.map_congr_left ?_⟩
  intro a _
  simp only [Function.comp_apply]
  rw [← Nat.shiftRight_add]
  have h8 : (a + 1) * 8 = 8 + a * 8 := by ring
  rw [h8]

/-- Every byte of `take_bytes` is below 256. -/
theorem takeBytes_lt (v n : Nat) : ∀ b ∈ OffsetLen.takeBytes v n, b < 256 := by
  intro b hb
  simp only [OffsetLen.takeBytes, List.mem_map] at hb
  obtain ⟨i, _, rfl⟩ := hb
  exact Nat.mod_lt _ (by norm_num)

/-- The running index of `value_of_bytes` only shifts the result. -/
theorem valueOfBytesFrom_shift (bs : List Nat) :
    ∀ i, OffsetLen.valueOfBytesFrom i bs = (OffsetLen.valueOfBytesFrom 0 bs) <<< (i * 8) := by
  induction bs with
  | nil => intro i; simp [OffsetLen.valueOfBytesFrom]
  | cons b bs ih =>
    intro i
    simp only [OffsetLen.valueOfBytesFrom, ih (i + 1), ih 1]
    rw [lor_shiftLeft]
    congr 1
    have h8 : (i + 1) * 8 = 1 * 8 + i * 8 := by ring
    rw [h8, Nat.shiftLeft_add]

/-- Deserialising the bytes `take_bytes` produced recovers the value
modulo the width. -/
theorem valueOfBytes_takeBytes (n : Nat) :
    ∀ v, OffsetLen.valueOfBytes (OffsetLen.takeBytes v n) = v % 2 ^ (8 * n) := by
  induction n with
  | zero =>
    intro v
    simp [OffsetLen.takeBytes, OffsetLen.valueOfBytes, OffsetLen.valueOfBytesFrom,
      Nat.mod_one]
  | succ n ih =>
    intro v
    rw [takeBytes_succ]
    simp only [OffsetLen.valueOfBytes, OffsetLen.valueOfBytesFrom]
    rw [valueOfBytesFrom_shift]
    have ih' := ih (v >>> 8)
    simp only [OffsetLen.valueOfBytes] at ih'
    rw [ih']
    rw [Nat.zero_mul, Nat.shiftLeft_zero]
    have h01 : (0 + 1) * 8 = 8 := by norm_num
    rw [h01, Nat.lor_comm,
      shiftLeft_lor_eq_add (show v % 256 < 2 ^ 8 from Nat.mod_lt _ (by norm_num))]
    rw [Nat.shiftRight_eq_div_pow]
    have h1 : 2 ^ (8 * (n + 1)) = 2 ^ 8 * 2 ^ (8 * n) := by ring
    rw [h1, Nat.mod_mul]
    norm_num
    omega

/-- `find_num_bytes` picks the minimal width 1–8 able to represent any
`u64` value, with the boundaries of `SIZES`. -/
theorem findNumBytes_spec (v : Nat) (hv : v < 2 ^ 64) :
    ∃ w, OffsetLen.findNumBytes v = some w ∧ 1 ≤ w ∧ w ≤ 8 ∧
      v < 2 ^ (8 * w) ∧ (2 ≤ w → 2 ^ (8 * (w - 1)) - 1 < v) := by
  simp only [OffsetLen.findNumBytes, OffsetLen.SIZES, OffsetLen.findNumBytesAux]
  norm_num
  split_ifs with h1 h2 h3 h4 h5 h6 h7 h8
  · exact ⟨1, rfl, by norm_num, by norm_num, by norm_num; omega, by omega⟩
  · exact ⟨2, rfl, by norm_num, by norm_num, by norm_num; omega, fun _ => by norm_num; omega⟩
  · exact ⟨3, rfl, by norm_num, by norm_num, by norm_num; omega, fun _ => by norm_num; omega⟩
  · exact ⟨4, rfl, by norm_num, by norm_num, by norm_num; omega, fun _ => by norm_num; omega⟩
  · exact ⟨5, rfl, by norm_num, by norm_num, by norm_num; omega, fun _ => by norm_num; omega⟩
  · exact ⟨6, rfl, by norm_num, by norm_num, by norm_num; omega, fun _ => by norm_num; omega⟩
  · exact ⟨7, rfl, by norm_num, by norm_num, by norm_num; omega, fun _ => by norm_num; omega⟩
  · exact ⟨8, rfl, by norm_num, by norm_num, by norm_num; omega, fun _ => by norm_num; omega⟩
  · exact absurd hv (by norm_num; omega)

/-- Serialising and deserialising an `OffsetLen` with `u64` components:
the emitted byte list and the round trip. -/
theorem offsetLen_roundtrip (o l : Nat) (mb : Option (List Nat))
    (ho : o < 2 ^ 64) (hl : l < 2 ^ 64) :
    ∃ ow lw,
      OffsetLen.findNumBytes o = some ow ∧ OffsetLen.findNumBytes l = some lw ∧
      OffsetLen.toBytesNew ⟨o, l, mb⟩
        = some ((0b10000000 ||| ((ow - 1) <<< 3) ||| (lw - 1))
            :: (OffsetLen.takeBytes o ow ++ OffsetLen.takeBytes l lw)) ∧
      OffsetLen.ofBytesNew ((0b10000000 ||| ((ow - 1) <<< 3) ||| (lw - 1))
            :: (OffsetLen.takeBytes o ow ++ OffsetLen.takeBytes l lw))
        = some ⟨o, l, none⟩ := by
  obtain ⟨ow, hfo, how1, how8, hou, _⟩ := findNumBytes_spec o ho
  obtain ⟨lw, hfl, hlw1, hlw8, hlu, _⟩ := findNumBytes_spec l hl
  have hm := marker_fields (ow - 1) (by omega) (lw - 1) (by omega)
  have hrh : OffsetLen.readHeaderByte (0b10000000 ||| ((ow - 1) <<< 3) ||| (lw - 1))
      = (ow, lw) := by
    simp only [OffsetLen.readHeaderByte, hm.2.1, hm.2.2]
    have : ow - 1 + 1 = ow := by omega
    have : lw - 1 + 1 = lw := by omega
    simp_all
  refine ⟨ow, lw, hfo, hfl, ?_, ?_⟩
  · simp [OffsetLen.toBytesNew, hfo, hfl]
  · have htake := List.take_left (OffsetLen.takeBytes o ow) (OffsetLen.takeBytes l lw)
    have hdrop := List.drop_left (OffsetLen.takeBytes o ow) (OffsetLen.takeBytes l lw)
    rw [takeBytes_length o ow] at htake hdrop
    simp only [OffsetLen.ofBytesNew, List.head?, hrh, Option.bind_eq_bind,
      Option.some_bind]
    have hlen : (((0b10000000 ||| ((ow - 1) <<< 3) ||| (lw - 1))
        :: (OffsetLen.takeBytes o ow ++ OffsetLen.takeBytes l lw)).length)
        = 1 + ow + lw := by
      simp [takeBytes_length]
      omega
    rw [if_neg (by rw [hlen]; exact fun h => h rfl)]
    rw [Nat.add_comm 1 ow]
    simp only [List.drop_succ_cons, List.drop_one, List.tail_cons, List.drop_zero]
    rw [htake, hdrop, valueOfBytes_takeBytes ow o, valueOfBytes_takeBytes lw l,
      Nat.mod_eq_of_lt hou, Nat.mod_eq_of_lt hlu]
    rfl

/-- The popped element and the remaining elements are members of the
original queue. -/
theorem popMin_mem (q : List (RNode × Nat)) (x : RNode × Nat) (rest : List (RNode × Nat))
    (h : popMin q = some (x, rest)) : x ∈ q ∧ ∀ y ∈ rest, y ∈ q := by
  induction q generalizing x rest with
  | nil => simp [popMin] at h
  | cons z zs ih =>
    simp only [popMin] at h
    cases hpm : popMin zs with
    | none =>
      simp only [hpm] at h
      simp at h
      obtain ⟨h1, h2⟩ := h
      subst h1
      subst h2
      exact ⟨List.mem_cons_self _ _, by simp⟩
    | some p =>
      simp only [hpm] at h
      split at h
      · simp at h
        obtain ⟨h1, h2⟩ := h
        subst h1
        subst h2
        exact ⟨List.mem_cons_self _ _, fun y hy => List.mem_cons_of_mem _ hy⟩
      · simp at h
        obtain ⟨h1, h2⟩ := h
        subst h1
        subst h2
        obtain ⟨hm, hsub⟩ := ih p.1 p.2 (by rw [hpm])
        refine ⟨List.mem_cons_of_mem _ hm, ?_⟩
        intro y hy
        rcases List.mem_cons.mp hy with hy | hy
        · exact hy ▸ List.mem_cons_self _ _
        · exact List.mem_cons_of_mem _ (hsub y hy)

/-- Every node the merge loop returns is well formed, provided the
queue holds only well-formed nodes. -/
theorem mergeLoopAux_wf : ∀ (fuel : Nat) (q : List (RNode × Nat)),
    (∀ p ∈ q, RNode.wfb p.1 = true) →
    ∀ r c, mergeLoopAux fuel q = some (r, c) → RNode.wfb r = true := by
  intro fuel
  induction fuel with
  | zero => intro q _ r c h; simp [mergeLoopAux] at h
  | succ fuel ih =>
    intro q hq r c h
    rw [mergeLoopAux] at h
    cases h0 : popMin q with
    | none => rw [h0] at h; cases h
    | some p0 =>
      obtain ⟨⟨n0, c0⟩, q1⟩ := p0
      rw [h0] at h
      simp only at h
      cases h1 : popMin q1 with
      | none =>
        rw [h1] at h
        simp only at h
        injection h with h'
        injection h' with hr hc
        subst hr
        exact hq _ (popMin_mem q _ _ h0).1
      | some p1 =>
        obtain ⟨⟨n1, c1⟩, q2⟩ := p1
        rw [h1] at h
        simp only at h
        refine ih (q2 ++ [(RNode.newVertex n0 n1, c0 + c1)]) ?_ r c h
        intro p hp
        rcases List.mem_append.mp hp with hp | hp
        · exact hq p ((popMin_mem q _ _ h0).2 p ((popMin_mem q1 _ _ h1).2 p hp))
        · simp at hp
          subst hp
          have hw0 := hq _ (popMin_mem q _ _ h0).1
          have hw1 := hq _ ((popMin_mem q _ _ h0).2 _ (popMin_mem q1 _ _ h1).1)
          simp [RNode.newVertex, RNode.wfb, hw0, hw1]

/-- The merge loop returns either an internal node with both children
or the sole element of a singleton queue. -/
theorem mergeLoopAux_internal : ∀ (fuel : Nat) (q : List (RNode × Nat)) (r : RNode) (c : Nat),
    mergeLoopAux fuel q = some (r, c) →
    ((r.value = none ∧ r.isEndNode = false ∧
      (∃ x, r.left = some x) ∧ (∃ x, r.right = some x)) ∨ q = [(r, c)]) := by
  intro fuel
  induction fuel with
  | zero => intro q r c h; simp [mergeLoopAux] at h
  | succ fuel ih =>
    intro q r c h
    rw [mergeLoopAux] at h
    cases h0 : popMin q with
    | none => rw [h0] at h; cases h
    | some p0 =>
      obtain ⟨⟨n0, c0⟩, q1⟩ := p0
      rw [h0] at h
      simp only at h
      cases h1 : popMin q1 with
      | none =>
        rw [h1] at h
        simp only at h
        injection h with h'
        injection h' with hr hc
        subst hr
        subst hc
        right
        have hq1 : q1 = [] := (popMin_eq_none q1).mp h1
        subst hq1
        have hlen := popMin_length q _ _ h0
        simp at hlen
        cases q with
        | nil => simp [popMin] at h0
        | cons a as =>
          simp at hlen
          subst hlen
          have := (popMin_mem _ _ _ h0).1
          simp at this
          rw [this]
      | some p1 =>
        obtain ⟨⟨n1, c1⟩, q2⟩ := p1
        rw [h1] at h
        simp only at h
        rcases ih (q2 ++ [(RNode.newVertex n0 n1, c0 + c1)]) r c h with hint | hsing
        · exact Or.inl hint
        · left
          cases q2 with
          | nil =>
            simp at hsing
            rw [← hsing.1]
            exact ⟨rfl, rfl, ⟨n0, rfl⟩, ⟨n1, rfl⟩⟩
          | cons b bs =>
            exfalso
            have := congrArg List.length hsing
            simp at this

/-- With fuel at least the queue length, the merge loop of a nonempty
queue returns a node. -/
theorem mergeLoopAux_isSome : ∀ (fuel : Nat) (q : List (RNode × Nat)),
    q ≠ [] → q.length ≤ fuel → ∃ rc, mergeLoopAux fuel q = some rc := by
  intro fuel
  induction fuel with
  | zero =>
    intro q hne hlen
    exact absurd (List.length_eq_zero.mp (by omega)) hne
  | succ fuel ih =>
    intro q hne hlen
    cases h0 : popMin q with
    | none => exact absurd ((popMin_eq_none q).mp h0) hne
    | some p0 =>
      obtain ⟨⟨n0, c0⟩, q1⟩ := p0
      cases h1 : popMin q1 with
      | none =>
        refine ⟨(n0, c0), ?_⟩
        rw [mergeLoopAux, h0]
        simp only
        rw [h1]
      | some p1 =>
        obtain ⟨⟨n1, c1⟩, q2⟩ := p1
        have hl0 := popMin_length q _ _ h0
        have hl1 := popMin_length q1 _ _ h1
        obtain ⟨rc, hrc⟩ := ih (q2 ++ [(RNode.newVertex n0 n1, c0 + c1)])
          (by simp) (by simp; omega)
        exact ⟨rc, by rw [mergeLoopAux, h0]; simp only; rw [h1]; simp only; exact hrc⟩

/-- `build_tree` on a nonempty frequency table returns a tree whose
root is a well-formed internal node. -/
theorem buildTree_root_wf (stats : ByteStats) (h : stats ≠ []) :
    ∃ root, buildTree stats = some ⟨some root⟩ ∧ RNode.wfb root = true ∧
      root.value = none ∧ root.isEndNode = false ∧
      (∃ x, root.left = some x) ∧ (∃ x, root.right = some x) := by
  have hq : stats.map (fun vc => (RNode.newLeaf vc.1, vc.2)) ≠ [] := by
    simpa using h
  cases h0 : popMin (stats.map (fun vc => (RNode.newLeaf vc.1, vc.2))) with
  | none => exact absurd ((popMin_eq_none _).mp h0) hq
  | some p0 =>
    obtain ⟨⟨node, count⟩, q'⟩ := p0
    have hl0 := popMin_length _ _ _ h0
    have hQne : q' ++ [(RNode.newVertex node RNode.newEnd, count)] ≠ [] := by simp
    obtain ⟨⟨r, c⟩, hm⟩ := mergeLoopAux_isSome
      (q' ++ [(RNode.newVertex node RNode.newEnd, count)]).length
      (q' ++ [(RNode.newVertex node RNode.newEnd, count)]) hQne (Nat.le_refl _)
    have hleaves : ∀ p ∈ stats.map (fun vc => (RNode.newLeaf vc.1, vc.2)),
        RNode.wfb p.1 = true := by
      intro p hp
      obtain ⟨vc, _, rfl⟩ := List.mem_map.mp hp
      rfl
    have hallwf : ∀ p ∈ q' ++ [(RNode.newVertex node RNode.newEnd, count)],
        RNode.wfb p.1 = true := by
      intro p hp
      rcases List.mem_append.mp hp with hp | hp
      · exact hleaves p ((popMin_mem _ _ _ h0).2 p hp)
      · simp at hp
        subst hp
        have hwn := hleaves _ (popMin_mem _ _ _ h0).1
        simp [RNode.newVertex, RNode.wfb, RNode.newEnd] at hwn ⊢
        cases hnode : node with
        | mk v l rr e => cases v <;> simp_all [RNode.wfb]
    have hwf := mergeLoopAux_wf _ _ hallwf r c hm
    have hint : r.value = none ∧ r.isEndNode = false ∧
        (∃ x, r.left = some x) ∧ (∃ x, r.right = some x) := by
      rcases mergeLoopAux_internal _ _ r c hm with hint | hsing
      · exact hint
      · have hpair : (RNode.newVertex node RNode.newEnd, count) = (r, c) := by
          cases q' with
          | nil => simpa using hsing
          | cons b bs =>
            exfalso
            have := congrArg List.length hsing
            simp at this
        have hr : r = RNode.newVertex node RNode.newEnd := by
          have := congrArg Prod.fst hpair
          simpa using this.symm
        subst hr
        exact ⟨rfl, rfl, ⟨node, rfl⟩, ⟨RNode.newEnd, rfl⟩⟩
    refine ⟨r, ?_, hwf, hint⟩
    simp only [buildTree, h0, mergeLoop]
    rw [hm]

/-- Walking a well-formed tree from a well-formed internal node never
dereferences a missing child, for any bit sequence. -/
theorem unpackWalk_isSome (root : RNode)
    (hw : RNode.wfb root = true) (hv : root.value = none) (he : root.isEndNode = false) :
    ∀ (bits : List Bool) (cur : RNode),
      RNode.wfb cur = true → cur.value = none → cur.isEndNode = false →
      (unpackWalk root cur bits).isSome := by
  intro bits
  induction bits with
  | nil => intro cur _ _ _; simp [unpackWalk]
  | cons b rest ih =>
    intro cur hcw hcv hce
    obtain ⟨v, l, r, e⟩ := cur
    simp only [RNode.value] at hcv
    simp only [RNode.isEndNode] at hce
    subst hcv
    subst hce
    cases l with
    | none => simp [RNode.wfb] at hcw
    | some ln =>
      cases r with
      | none => simp [RNode.wfb] at hcw
      | some rn =>
        have hlr : RNode.wfb ln = true ∧ RNode.wfb rn = true := by
          have : RNode.wfb (.mk none (some ln) (some rn) false)
              = (RNode.wfb ln && RNode.wfb rn) := rfl
          rw [this] at hcw
          exact Bool.and_eq_true_iff.mp hcw
        cases b with
        | false =>
          simp only [unpackWalk, RNode.left, RNode.right, Bool.false_eq_true, if_false]
          cases hlv : ln.value with
          | some v' =>
            simp only [hlv, Option.isSome_map']
            exact ih root hw hv he
          | none =>
            cases hle : ln.isEndNode with
            | true => simp [hlv, hle]
            | false =>
              simp only [hlv, hle, Bool.false_eq_true, if_false]
              exact ih ln hlr.1 hlv hle
        | true =>
          simp only [unpackWalk, RNode.left, RNode.right, if_true]
          cases hrv : rn.value with
          | some v' =>
            simp only [hrv, Option.isSome_map']
            exact ih root hw hv he
          | none =>
            cases hre : rn.isEndNode with
            | true => simp [hrv, hre]
            | false =>
              simp only [hrv, hre, Bool.false_eq_true, if_false]
              exact ih rn hlr.2 hrv hre

/-- Soundness invariant of the `find_match` scan: any match the loop
reports starts inside the lookback window, stays inside it, and its
bytes equal both the lookback slice at its offset and the prefix of the
read buffer. -/
theorem findMatchLoop_sound (read lb : List Nat) :
    ∀ (fuel i : Nat) (co : Nat) (cmv : List Nat) (best : Option (Nat × List Nat)),
      (cmv = [] ∨
        (co + cmv.length ≤ i ∧
         (co + cmv.length = i ∨ read.length ≤ cmv.length) ∧
         co + cmv.length ≤ lb.length ∧
         cmv = (lb.drop co).take cmv.length ∧
         cmv = read.take cmv.length)) →
      (∀ o mv, best = some (o, mv) →
        mv ≠ [] ∧ o + mv.length ≤ lb.length ∧
        mv = (lb.drop o).take mv.length ∧ mv = read.take mv.length) →
      ∀ o mv, findMatchLoop read lb fuel i (co, cmv) best = some (o, mv) →
        mv ≠ [] ∧ o + mv.length ≤ lb.length ∧
        mv = (lb.drop o).take mv.length ∧ mv = read.take mv.length := by
  intro fuel
  induction fuel with
  | zero =>
    intro i co cmv best _ hbest o mv hres
    exact hbest o mv hres
  | succ fuel ih =>
    intro i co cmv best hinv hbest o mv hres
    rw [findMatchLoop] at hres
    by_cases hge : i ≥ lb.length
    · rw [if_pos hge] at hres
      exact hbest o mv hres
    rw [if_neg hge] at hres
    have hi : i < lb.length := by omega
    cases hexp : read.get? cmv.length with
    | none =>
      rw [hexp] at hres
      refine ih (i + 1) co cmv best ?_ hbest o mv hres
      rcases hinv with h | ⟨h1, _h2, h3, h4, h5⟩
      · exact Or.inl h
      · refine Or.inr ⟨by omega, Or.inr ?_, h3, h4, h5⟩
        rw [List.get?_eq_getElem?] at hexp
        exact List.getElem?_eq_none_iff.mp hexp
    | some e =>
      rw [hexp] at hres
      have hlenr : cmv.length < read.length := by
        rw [List.get?_eq_getElem?] at hexp
        obtain ⟨h, _⟩ := List.getElem?_eq_some_iff.mp hexp
        exact h
      have hgetlb : lb[i]? = some (lb.getD i 0) := by
        rw [List.getD_eq_getElem?_getD]
        cases hh : lb[i]? with
        | none => exact absurd (List.getElem?_eq_none_iff.mp hh) (by omega)
        | some a => rfl
      simp only at hres
      by_cases heq : lb.getD i 0 = e
      · rw [if_pos heq] at hres
        -- the pushed current match and the possibly-updated best
        have hcur' :
            ∀ co' cmv',
              (co', cmv') = (if cmv.isEmpty then (i, cmv) else (co, cmv)) →
              (cmv' ++ [lb.getD i 0]) = (lb.drop co').take (cmv' ++ [lb.getD i 0]).length ∧
              (cmv' ++ [lb.getD i 0]) = read.take (cmv' ++ [lb.getD i 0]).length ∧
              co' + (cmv' ++ [lb.getD i 0]).length = i + 1 ∧
              co' + (cmv' ++ [lb.getD i 0]).length ≤ lb.length := by
          intro co' cmv' hco'
          cases hcmv : cmv with
          | nil =>
            subst hcmv
            simp only [List.isEmpty_nil, if_true] at hco'
            injection hco' with h1 h2
            subst h1
            subst h2
            have hread0 : read[0]? = some e := by
              rw [List.get?_eq_getElem?] at hexp
              simpa using hexp
            refine ⟨?_, ?_, by simp, by simpa using hi⟩
            · rw [List.nil_append, List.length_singleton]
              rw [List.take_succ, List.take_zero, List.nil_append]
              rw [List.getElem?_drop, Nat.add_zero, hgetlb]
              rfl
            · rw [List.nil_append, List.length_singleton]
              rw [List.take_succ, List.take_zero, List.nil_append, hread0, heq]
              rfl
          | cons c cs =>
            subst hcmv
            simp only [List.isEmpty_cons, if_false] at hco'
            injection hco' with h1 h2
            subst h1
            subst h2
            rcases hinv with h | ⟨h1, h2, h3, h4, h5⟩
            · exact absurd h (by simp)
            have heqi : co' + (c :: cs).length = i := by
              rcases h2 with h2 | h2
              · exact h2
              · omega
            refine ⟨?_, ?_, by simp at heqi ⊢; omega, by simp at heqi ⊢; omega⟩
            · rw [List.length_append, List.length_singleton, List.take_succ]
              rw [List.getElem?_drop, heqi, hgetlb]
              rw [← h4]
              rfl
            · rw [List.length_append, List.length_singleton, List.take_succ]
              rw [List.get?_eq_getElem?] at hexp
              rw [hexp, ← h5, heq]
              rfl
        -- now push through the lets in hres
        rcases hcc : (if cmv.isEmpty then (i, cmv) else (co, cmv)) with ⟨co', cmv'⟩
        obtain ⟨hs1, hs2, hs3, hs4⟩ := hcur' co' cmv' hcc.symm
        rw [hcc] at hres
        simp only at hres
        refine ih (i + 1) co' (cmv' ++ [lb.getD i 0]) _ ?_ ?_ o mv hres
        · exact Or.inr ⟨by omega, Or.inl hs3, hs4, hs1, hs2⟩
        · intro o' mv' hb
          split at hb
          · injection hb with hb'
            injection hb' with hbo hbm
            subst hbo
            subst hbm
            exact ⟨by simp, hs4, hs1, hs2⟩
          · exact hbest o' mv' hb
      · rw [if_neg heq] at hres
        exact ih (i + 1) 0 [] best (Or.inl rfl) hbest o mv hres

/-- Tie keeping in the `find_match` scan: once a best match is held,
the loop's result is either that very match or a strictly longer one
(the update condition `current_match.1.len() > matched_values.len()` is
strict), so a later equal-length match never displaces the first-found
one. -/
theorem findMatchLoop_keeps_first (read lb : List Nat) :
    ∀ (fuel i : Nat) (cur : Nat × List Nat) (bo : Nat) (bmv : List Nat)
      (o : Nat) (mv : List Nat),
      findMatchLoop read lb fuel i cur (some (bo, bmv)) = some (o, mv) →
      (o = bo ∧ mv = bmv) ∨ bmv.length < mv.length := by
  intro fuel
  induction fuel with
  | zero =>
    intro i cur bo bmv o mv h
    rw [findMatchLoop] at h
    injection h with h'
    injection h' with h1 h2
    exact Or.inl ⟨h1.symm, h2.symm⟩
  | succ fuel ih =>
    intro i cur bo bmv o mv h
    rw [findMatchLoop] at h
    by_cases hge : i ≥ lb.length
    · rw [if_pos hge] at h
      injection h with h'
      injection h' with h1 h2
      exact Or.inl ⟨h1.symm, h2.symm⟩
    rw [if_neg hge] at h
    cases hexp : read.get? cur.2.length with
    | none =>
      rw [hexp] at h
      simp only at h
      exact ih _ _ _ _ _ _ h
    | some e =>
      rw [hexp] at h
      simp only at h
      by_cases heq : lb.getD i 0 = e
      · rw [if_pos heq] at h
        split at h
        all_goals split at h
        all_goals first
          | (rename_i hcond
             have hgt := of_decide_eq_true hcond
             rcases ih _ _ _ _ _ _ h with ⟨_, hm⟩ | hlt
             · right
               rw [hm]
               exact hgt
             · right
               omega)
          | exact ih _ _ _ _ _ _ h
      · rw [if_neg heq] at h
        exact ih _ _ _ _ _ _ h

/-! # Claim theorems -/

/-- Claim C1 (evidence of the code bug): the round trip
`decode(encode(x)) = x` fails already at the empty input.  An empty
input leaves the frequency table empty, and `build_tree` then panics on
`priority_queue.pop_min().unwrap()` (modelled: `encodeModelTree [] =
none`), so `encode` aborts instead of producing a container. -/
theorem c1_round_trip_fails_on_empty_input :
    populateByteStats [] initialStatsBuffer [] = [] ∧ encodeModelTree [] = none :=
  ⟨rfl, rfl⟩

set_option maxRecDepth 8192 in
/-- Claim C2 (evidence of the code bug): for the forced tree of
`stats4`, a literal run of 247 copies of byte 2 packs to exactly 63
bytes, is emitted as one chunk record and decodes back identically; a
run of 251 copies packs to exactly 64 bytes and is emitted as two chunk
records, but the decoder — which unpacks every chunk independently from
the tree root, discarding the bit position reached at the chunk
boundary — returns 254 bytes instead of the original 251. -/
theorem c2_second_chunk_decodes_wrong :
    buildTree stats4 = some tree4 ∧
    treeToCodeMap tree4 = some codeMap4 ∧
    (packToU8 codeMap4 (List.replicate 247 2)).map List.length = some 63 ∧
    (endChunkPayloads codeMap4 (List.replicate 247 2)).map List.length = some 1 ∧
    (endChunkPayloads codeMap4 (List.replicate 247 2)).bind (decodeChunkedLiterals tree4)
      = some (List.replicate 247 2) ∧
    (packToU8 codeMap4 (List.replicate 251 2)).map List.length = some 64 ∧
    (endChunkPayloads codeMap4 (List.replicate 251 2)).map List.length = some 2 ∧
    ((endChunkPayloads codeMap4 (List.replicate 251 2)).bind
        (decodeChunkedLiterals tree4)).map List.length = some 254 ∧
    (endChunkPayloads codeMap4 (List.replicate 251 2)).bind (decodeChunkedLiterals tree4)
      ≠ some (List.replicate 251 2) :=
  ⟨rfl, rfl, rfl, rfl, rfl, rfl, rfl, rfl, by decide⟩

/-- Claim C3 (evidence of the code bug): `stats4` covers every byte of
`s = 31` copies of byte 2 (code `00`), whose packed form occupies 62
bits; the 4-bit end sentinel does not fit into the 2 remaining
accumulator bits and is silently dropped by `pack_to_u8`, and
`unpack_bytes` then decodes the two zero padding bits as one extra
byte 2: the round trip returns 32 copies instead of 31. -/
theorem c3_padding_decoded_when_sentinel_dropped :
    buildTree stats4 = some tree4 ∧
    treeToCodeMap tree4 = some codeMap4 ∧
    (packToU8 codeMap4 (List.replicate 31 2)).bind (unpackBytes · tree4)
      = some (List.replicate 32 2) ∧
    (packToU8 codeMap4 (List.replicate 31 2)).bind (unpackBytes · tree4)
      ≠ some (List.replicate 31 2) :=
  ⟨rfl, rfl, rfl, by decide⟩

/-- Claim C4, counterexample: with lookback window `[0, 0, 1, 2]` and
pending window `[0, 1, 2]`, the longest run described by the claim
starts at offset 1 and has length 3 (≥ the threshold 3), so the claim
requires a match record — but `find_match` returns the raw literal 0:
its single scan consumed position 1 inside the run started at offset 0
and, after the mismatch, never reconsiders it as a fresh start. -/
theorem c4_counterexample :
    findMatch [0, 1, 2] [0, 0, 1, 2] false = some (.rawU8 0) ∧
    claimFindMatch [0, 1, 2] [0, 0, 1, 2]
      = some (.offsetLen ⟨1, 3, some [0, 1, 2]⟩) ∧
    findMatch [0, 1, 2] [0, 0, 1, 2] false ≠ claimFindMatch [0, 1, 2] [0, 0, 1, 2] := by
  decide

/-- Claim C4, amended: `find_match` searches only within the lookback
window and may miss the longest run (see the counterexample: its single
scan does not reconsider a mismatched position as a fresh start).  What
does hold: (1) the result is either the raw literal at the front of the
pending window, or a match record that is sound — it starts inside the
lookback window, `offset + len` lies within the lookback window (the
run never continues into the pending window), its bytes equal the
pending-window prefix of its length, and its length reaches
`MIN_MATCH_SIZE`; and (2) the scan holds on to a found match unless a
strictly longer one appears, so a later equal-length match never
displaces the first-found one. -/
theorem c4_find_match_soundness (read lb : List Nat) (hne : read ≠ []) :
    ((∃ b, findMatch read lb false = some (.rawU8 b) ∧ read.head? = some b) ∨
      (∃ o n, findMatch read lb false
          = some (.offsetLen ⟨o, n, some (read.take n)⟩) ∧
        MIN_MATCH_SIZE ≤ n ∧ o + n ≤ lb.length ∧
        (lb.drop o).take n = read.take n)) ∧
    (∀ (fuel i : Nat) (cur : Nat × List Nat) (bo : Nat) (bmv : List Nat)
        (o : Nat) (mv : List Nat),
      findMatchLoop read lb fuel i cur (some (bo, bmv)) = some (o, mv) →
      (o = bo ∧ mv = bmv) ∨ bmv.length < mv.length) := by
  refine ⟨?_, findMatchLoop_keeps_first read lb⟩
  have hhead : ∃ b, read.head? = some b := by
    cases read with
    | nil => exact absurd rfl hne
    | cons a _ => exact ⟨a, rfl⟩
  obtain ⟨b0, hb0⟩ := hhead
  have hs := findMatchLoop_sound read lb (read.length + lb.length) 0 0 [] none
    (Or.inl rfl) (by intro o mv h; cases h)
  cases hbm : findMatchLoop read lb (read.length + lb.length) 0 (0, []) none with
  | none =>
    left
    refine ⟨b0, ?_, hb0⟩
    simp [findMatch, hbm, hb0]
  | some p =>
    obtain ⟨o, mv⟩ := p
    obtain ⟨hmv, hole, hslice, hread⟩ := hs o mv hbm
    by_cases hsmall : mv.length < MIN_MATCH_SIZE
    · left
      refine ⟨b0, ?_, hb0⟩
      simp [findMatch, hbm, hsmall, hb0]
    · right
      have hmbeq : (⟨o, mv.length, some mv⟩ : OffsetLen)
          = ⟨o, mv.length, some (read.take mv.length)⟩ := by rw [← hread]
      refine ⟨o, mv.length, ?_, by omega, hole, by rw [← hslice, ← hread]⟩
      simp [findMatch, hbm, hsmall, OffsetLen.newWithMatch, ← hmbeq]

/-- Witness for C4 (amended) at a window pair with a qualifying match. -/
theorem c4_find_match_soundness_witness :
    ((∃ b, findMatch [7, 7, 7] [7, 7, 7] false = some (.rawU8 b) ∧
        [7, 7, 7].head? = some b) ∨
      (∃ o n, findMatch [7, 7, 7] [7, 7, 7] false
          = some (.offsetLen ⟨o, n, some (([7, 7, 7] : List Nat).take n)⟩) ∧
        MIN_MATCH_SIZE ≤ n ∧ o + n ≤ ([7, 7, 7] : List Nat).length ∧
        (([7, 7, 7] : List Nat).drop o).take n = ([7, 7, 7] : List Nat).take n)) ∧
    (∀ (fuel i : Nat) (cur : Nat × List Nat) (bo : Nat) (bmv : List Nat)
        (o : Nat) (mv : List Nat),
      findMatchLoop [7, 7, 7] [7, 7, 7] fuel i cur (some (bo, bmv)) = some (o, mv) →
      (o = bo ∧ mv = bmv) ∨ bmv.length < mv.length) :=
  c4_find_match_soundness [7, 7, 7] [7, 7, 7] (by decide)

/-- Claim C5: a match record whose `offset + len` exceeds the bytes
currently materialised in the decode window is rejected
(`RangeOutOfBounds`, modelled as `none`) rather than read out of range,
and a record within bounds appends exactly
`window[offset..offset+len]` to the window's tail. -/
theorem c5_finalise_match_bounds (w : List Nat) (ol : OffsetLen) :
    (ol.offset + ol.len > w.length → finaliseMatch w ol = none) ∧
    (ol.offset + ol.len ≤ w.length →
      finaliseMatch w ol = some (w ++ (w.drop ol.offset).take ol.len)) := by
  constructor
  · intro h
    rw [finaliseMatch, if_pos]
    exact h
  · intro h
    rw [finaliseMatch, if_neg]
    simp only [OffsetLen.rangeEnd, not_lt]
    exact h

/-- Witness for C5 at concrete inputs. -/
theorem c5_finalise_match_bounds_witness :
    finaliseMatch [5] ⟨2, 1, none⟩ = none ∧
    finaliseMatch [7, 8] ⟨0, 2, none⟩ = some [7, 8, 7, 8] :=
  ⟨(c5_finalise_match_bounds [5] ⟨2, 1, none⟩).1 (by decide),
   (c5_finalise_match_bounds [7, 8] ⟨0, 2, none⟩).2 (by decide)⟩

/-- Claim C6, counterexample: the empty container leaves the decoder in
the initial `Start` state, which is not the `ExpectingRecordMarker`
steady state, yet `decode`'s final-state match accepts it — end of
input is not accepted *exactly* in `ExpectingRecordMarker`. -/
theorem c6_counterexample :
    decodeFinalState [] = some DecodeParseState.start ∧
    eoiAccepted DecodeParseState.start = true ∧
    DecodeParseState.start ≠ DecodeParseState.expectingMatchOrRawChunk := by
  decide

/-- Claim C6, amended: end of input is accepted exactly in the steady
state `ExpectingMatchOrRawChunk`, in the initial `Start` state (an empty
input decodes to an empty output), and in the never-constructed
`RawByteChunk(_, FinaliseMatch _)` state; every other state at end of
input — mid header length, mid header body, mid offset/len record, or
mid literal chunk — is a truncated-stream failure. -/
theorem c6_eoi_accepting_states (s : DecodeParseState) :
    eoiAccepted s = true ↔
      (s = .start ∨ s = .expectingMatchOrRawChunk ∨
        ∃ n ol, s = .rawByteChunk n (.finaliseMatch ol)) := by
  cases s with
  | rawByteChunk n f =>
    cases f with
    | nothing => simp [eoiAccepted]
    | finaliseMatch ol =>
      simp only [eoiAccepted, true_iff]
      exact Or.inr (Or.inr ⟨n, ol, rfl⟩)
  | _ => simp [eoiAccepted]

/-- Claim C7 (evidence of the code bug): for the one-byte input `[1]`,
`populate_byte_stats` counts all ten buffer slots although the read
returned a single byte, so the table records nine occurrences of the
never-occurring byte 0 alongside the one occurrence of byte 1. -/
theorem c7_stale_buffer_bytes_counted :
    populateByteStats [] initialStatsBuffer [1] = [(1, 1), (0, 9)] ∧
    statsGet 0 (populateByteStats [] initialStatsBuffer [1]) = some 9 ∧
    (0 : Nat) ∉ [1] := by
  refine ⟨rfl, rfl, by decide⟩

/-- Claim C8: serialisation picks, independently for offset and len,
the minimal byte width 1–8 able to represent the value (boundaries
`2^8 - 1, …, 2^64 - 1`), emits one marker byte with top bits `10`,
bits 5–3 holding `offset_width - 1` and bits 2–0 holding
`len_width - 1`, then the offset bytes LSB-first
(`OffsetLen.takeBytes`) and the len bytes LSB-first; deserialisation
reverses this exactly, and fails whenever the number of supplied bytes
differs from `1 + offset_width + len_width` as implied by the marker. -/
theorem c8_offset_len_codec (o l : Nat) (mb : Option (List Nat))
    (ho : o < 2 ^ 64) (hl : l < 2 ^ 64) :
    ∃ ow lw,
      OffsetLen.findNumBytes o = some ow ∧ OffsetLen.findNumBytes l = some lw ∧
      (1 ≤ ow ∧ ow ≤ 8 ∧ o < 2 ^ (8 * ow) ∧ (2 ≤ ow → 2 ^ (8 * (ow - 1)) - 1 < o)) ∧
      (1 ≤ lw ∧ lw ≤ 8 ∧ l < 2 ^ (8 * lw) ∧ (2 ≤ lw → 2 ^ (8 * (lw - 1)) - 1 < l)) ∧
      (0b10000000 ||| ((ow - 1) <<< 3) ||| (lw - 1)) >>> 6 = 0b10 ∧
      ((0b10000000 ||| ((ow - 1) <<< 3) ||| (lw - 1)) >>> 3) &&& 0b00000111 = ow - 1 ∧
      (0b10000000 ||| ((ow - 1) <<< 3) ||| (lw - 1)) &&& 0b00000111 = lw - 1 ∧
      OffsetLen.toBytesNew ⟨o, l, mb⟩
        = some ((0b10000000 ||| ((ow - 1) <<< 3) ||| (lw - 1))
            :: (OffsetLen.takeBytes o ow ++ OffsetLen.takeBytes l lw)) ∧
      OffsetLen.ofBytesNew ((0b10000000 ||| ((ow - 1) <<< 3) ||| (lw - 1))
            :: (OffsetLen.takeBytes o ow ++ OffsetLen.takeBytes l lw))
        = some ⟨o, l, none⟩ ∧
      ∀ bs : List Nat,
        bs.head? = some (0b10000000 ||| ((ow - 1) <<< 3) ||| (lw - 1)) →
        bs.length ≠ 1 + ow + lw → OffsetLen.ofBytesNew bs = none := by
  obtain ⟨ow, lw, hfo, hfl, htb, hof⟩ := offsetLen_roundtrip o l mb ho hl
  obtain ⟨ow', hfo', how1, how8, hou, homin⟩ := findNumBytes_spec o ho
  obtain ⟨lw', hfl', hlw1, hlw8, hlu, hlmin⟩ := findNumBytes_spec l hl
  rw [hfo'] at hfo
  rw [hfl'] at hfl
  cases hfo
  cases hfl
  have hm := marker_fields (ow - 1) (by omega) (lw - 1) (by omega)
  have hrh : OffsetLen.readHeaderByte (0b10000000 ||| ((ow - 1) <<< 3) ||| (lw - 1))
      = (ow, lw) := by
    simp only [OffsetLen.readHeaderByte, hm.2.1, hm.2.2]
    have h1 : ow - 1 + 1 = ow := by omega
    have h2 : lw - 1 + 1 = lw := by omega
    simp_all
  refine ⟨ow, lw, hfo', hfl', ⟨how1, how8, hou, homin⟩, ⟨hlw1, hlw8, hlu, hlmin⟩,
    hm.1, hm.2.1, hm.2.2, htb, hof, ?_⟩
  intro bs hhead hblen
  cases bs with
  | nil => simp at hhead
  | cons b rest =>
    simp only [List.head?] at hhead
    injection hhead with hb
    subst hb
    simp only [OffsetLen.ofBytesNew, List.head?, Option.bind_eq_bind, Option.some_bind,
      hrh]
    rw [if_pos hblen]

/-- Witness for C8 at offset 300, len 5. -/
theorem c8_offset_len_codec_witness :
    ∃ ow lw,
      OffsetLen.findNumBytes 300 = some ow ∧ OffsetLen.findNumBytes 5 = some lw ∧
      (1 ≤ ow ∧ ow ≤ 8 ∧ 300 < 2 ^ (8 * ow) ∧ (2 ≤ ow → 2 ^ (8 * (ow - 1)) - 1 < 300)) ∧
      (1 ≤ lw ∧ lw ≤ 8 ∧ 5 < 2 ^ (8 * lw) ∧ (2 ≤ lw → 2 ^ (8 * (lw - 1)) - 1 < 5)) ∧
      (0b10000000 ||| ((ow - 1) <<< 3) ||| (lw - 1)) >>> 6 = 0b10 ∧
      ((0b10000000 ||| ((ow - 1) <<< 3) ||| (lw - 1)) >>> 3) &&& 0b00000111 = ow - 1 ∧
      (0b10000000 ||| ((ow - 1) <<< 3) ||| (lw - 1)) &&& 0b00000111 = lw - 1 ∧
      OffsetLen.toBytesNew ⟨300, 5, none⟩
        = some ((0b10000000 ||| ((ow - 1) <<< 3) ||| (lw - 1))
            :: (OffsetLen.takeBytes 300 ow ++ OffsetLen.takeBytes 5 lw)) ∧
      OffsetLen.ofBytesNew ((0b10000000 ||| ((ow - 1) <<< 3) ||| (lw - 1))
            :: (OffsetLen.takeBytes 300 ow ++ OffsetLen.takeBytes 5 lw))
        = some ⟨300, 5, none⟩ ∧
      ∀ bs : List Nat,
        bs.head? = some (0b10000000 ||| ((ow - 1) <<< 3) ||| (lw - 1)) →
        bs.length ≠ 1 + ow + lw → OffsetLen.ofBytesNew bs = none :=
  c8_offset_len_codec 300 5 none (by decide) (by decide)

/-- Claim C9: for offset/len components at every byte-width boundary
(`2^8 - 1, …, 2^64 - 1`) or one above a boundary, deserialising the
serialised form returns the identical pair. -/
theorem c9_boundary_round_trip (o l : Nat)
    (hbo : boundaryValue o) (hbl : boundaryValue l) :
    ∃ bs, OffsetLen.toBytesNew (OffsetLen.new o l) = some bs ∧
      OffsetLen.ofBytesNew bs = some (OffsetLen.new o l) := by
  have hlt : ∀ v, boundaryValue v → v < 2 ^ 64 := by
    intro v hv
    rcases hv with ⟨k, hk1, hk8, rfl⟩ | ⟨k, hk1, hk7, rfl⟩
    · have : (2 : Nat) ^ (8 * k) ≤ 2 ^ 64 :=
        Nat.pow_le_pow_right (by norm_num) (by omega)
      have h0 : 0 < (2 : Nat) ^ (8 * k) := Nat.pos_pow_of_pos _ (by norm_num)
      omega
    · calc (2 : Nat) ^ (8 * k) ≤ 2 ^ 56 := Nat.pow_le_pow_right (by norm_num) (by omega)
        _ < 2 ^ 64 := by norm_num
  obtain ⟨ow, lw, _, _, htb, hof⟩ :=
    offsetLen_roundtrip o l none (hlt o hbo) (hlt l hbl)
  exact ⟨_, htb, hof⟩

/-- Witness for C9 at the boundary pair `(2^8 - 1, 2^16)`. -/
theorem c9_boundary_round_trip_witness :
    ∃ bs, OffsetLen.toBytesNew (OffsetLen.new 255 65536) = some bs ∧
      OffsetLen.ofBytesNew bs = some (OffsetLen.new 255 65536) :=
  c9_boundary_round_trip 255 65536
    (Or.inl ⟨1, by norm_num⟩) (Or.inr ⟨2, by norm_num⟩)

/-- Claim C10: for every nonempty frequency table, `build_tree` returns
a tree in which every internal (non-leaf, non-sentinel) node has both a
left and a right child (`RNode.wfb`), and consequently `unpack_bytes`
is total on arbitrary input byte sequences with that tree: the walk
never hits the `unwrap` of a missing child and always terminates
(`isSome`), stopping at the end sentinel or when the bits run out. -/
theorem c10_internal_nodes_and_unpack_total (stats : ByteStats) (h : stats ≠ []) :
    ∃ root, buildTree stats = some ⟨some root⟩ ∧ RNode.wfb root = true ∧
      ∀ bytes : List Nat, (unpackBytes bytes ⟨some root⟩).isSome := by
  obtain ⟨root, hbt, hw, hv, he, _, _⟩ := buildTree_root_wf stats h
  refine ⟨root, hbt, hw, fun bytes => ?_⟩
  simp only [unpackBytes]
  exact unpackWalk_isSome root hw hv he (bytesToBits bytes) root hw hv he

/-- Witness for C10 at the single-symbol frequency table `[(0, 1)]`. -/
theorem c10_internal_nodes_and_unpack_total_witness :
    ∃ root, buildTree [(0, 1)] = some ⟨some root⟩ ∧ RNode.wfb root = true ∧
      ∀ bytes : List Nat, (unpackBytes bytes ⟨some root⟩).isSome :=
  c10_internal_nodes_and_unpack_total [(0, 1)] (by decide)

end Lizards
